import Mathlib

/-!
Shallow embedding of the version-history-inference core
(`src/inference/{diffing,engine,edmonds}.rs` and `src/types.rs`), with
theorems checking the specification's claims about it.

Numeric convention: the Rust code computes divergences in `f32`; the
embedding models these reals exactly as rationals (`ℚ`), so every penalty
constant (`2.0`, `4.0`, `1.0`, `0.02`, `0.05`) is exact and the algebraic
structure of the scoring code is preserved.
-/

namespace VHI

/-- Embedding of `similar::ChangeTag` (external crate enum used by `types.rs`). -/
inductive ChangeTag where
  | equal : ChangeTag
  | delete : ChangeTag
  | insert : ChangeTag
deriving DecidableEq, Repr

/-- From `types.rs`: `TextChange` — one line-level edit record. -/
structure TextChange where
  tag : ChangeTag
  old_index : Option Nat
  new_index : Option Nat
  value : String
deriving DecidableEq, Repr

/-- From `types.rs`: `FileChange` — a file path plus its list of text changes. -/
structure FileChange where
  filename : String
  changes : List TextChange
deriving DecidableEq, Repr

/-- From `types.rs`: `TextualVersionDiff` — the three groups of file changes. -/
structure TextualVersionDiff where
  added_files : List FileChange
  deleted_files : List FileChange
  modified_files : List FileChange
deriving DecidableEq, Repr

/-- From `types.rs`: `FileData` — file content, `none` is the non-text sentinel. -/
structure FileData where
  text_content : Option String
deriving DecidableEq, Repr

/-- From `types.rs`: `Version` — a named snapshot. The `HashMap<String, FileData>`
is modelled as an association list; theorems that depend on the map
abstraction take a `Nodup` hypothesis on the keys, which the `HashMap`
guarantees. The opaque path is kept as a plain string. -/
structure Version where
  name : String
  path : String
  files : List (String × FileData)
deriving DecidableEq, Repr

/-- Split a string into its lines, each line keeping its trailing newline
(the segmentation used by `similar::TextDiff::from_lines`). -/
def linesKeepNL (s : String) : List String :=
  go s.data []
where
  go : List Char → List Char → List String
    | [], acc => if acc.isEmpty then [] else [String.mk acc.reverse]
    | c :: cs, acc =>
      if c = '\n' then String.mk (c :: acc).reverse :: go cs []
      else go cs (c :: acc)

/-- Length of a longest common subsequence of two line lists, with an
explicit recursion budget. Every recursive call shortens the combined
input by at least one line while spending one unit of fuel, so any fuel
`≥ xs.length + ys.length` computes the true LCS length; the fuel keeps
the definition structurally recursive (kernel-reducible). -/
def lcsLenF : Nat → List String → List String → Nat
  | _, [], _ => 0
  | _, _, [] => 0
  | 0, _, _ => 0
  | fuel + 1, x :: xs, y :: ys =>
    if x = y then lcsLenF fuel xs ys + 1
    else max (lcsLenF fuel xs (y :: ys)) (lcsLenF fuel (x :: xs) ys)

/-- Length of a longest common subsequence of two line lists. -/
def lcsLen (xs ys : List String) : Nat :=
  lcsLenF (xs.length + ys.length) xs ys

/-- Modelled from the spec: the line-diff primitive (§4.1), implemented in
the source by the external `similar` crate (Myers line diff), which is not
part of this repository. An LCS-optimal line diff emitting tagged records
with old/new indices; on a replaced block deletions are emitted before
insertions, as the crate's output (pinned by the tests in `diffing.rs`)
shows. None of the verified claims depends on which optimal diff is
chosen. Fueled for the same reason as `lcsLenF`. -/
def diffChangesF : Nat → List String → List String → Nat → Nat → List TextChange
  | _, [], [], _, _ => []
  | 0, _, _, _, _ => []
  | fuel + 1, [], y :: ys, oi, ni =>
    ⟨ChangeTag.insert, none, some ni, y⟩ :: diffChangesF fuel [] ys oi (ni + 1)
  | fuel + 1, x :: xs, [], oi, ni =>
    ⟨ChangeTag.delete, some oi, none, x⟩ :: diffChangesF fuel xs [] (oi + 1) ni
  | fuel + 1, x :: xs, y :: ys, oi, ni =>
    if x = y then
      ⟨ChangeTag.equal, some oi, some ni, x⟩ ::
        diffChangesF fuel xs ys (oi + 1) (ni + 1)
    else if lcsLen (x :: xs) ys ≤ lcsLen xs (y :: ys) then
      ⟨ChangeTag.delete, some oi, none, x⟩ ::
        diffChangesF fuel xs (y :: ys) (oi + 1) ni
    else
      ⟨ChangeTag.insert, none, some ni, y⟩ ::
        diffChangesF fuel (x :: xs) ys oi (ni + 1)

/-- From `diffing.rs`: `push_text_diff_changes` — diff two texts line-wise and
keep only the non-`Equal` records. (The buffer-passing style of the source
is returned functionally.) -/
def push_text_diff_changes (old new : String) : List TextChange :=
  let oldLines := linesKeepNL old
  let newLines := linesKeepNL new
  (diffChangesF (oldLines.length + newLines.length) oldLines newLines 0 0).filter
    (fun c => c.tag ≠ ChangeTag.equal)

/-- Embedding of `old_file.text_content.as_deref().unwrap_or("")` — the non-text
sentinel is coerced to the empty string. -/
def coerceText (fd : FileData) : String :=
  fd.text_content.getD ""

/-- From `diffing.rs`: `text_diff_versions` — classify every file of the two
snapshots into added / deleted / modified groups. The source's first
iteration over `old.files` pushes into `modified_files` and
`deleted_files`, the second iteration over `new.files` pushes into
`added_files`; each group receives its entries in iteration order, which
the `filterMap`s reproduce. -/
def text_diff_versions (old new : Version) : TextualVersionDiff :=
  let modified_files := old.files.filterMap (fun (file_name, old_file) =>
    match new.files.lookup file_name with
    | some new_file =>
      if coerceText old_file ≠ coerceText new_file then
        some ⟨file_name, push_text_diff_changes (coerceText old_file) (coerceText new_file)⟩
      else none
    | none => none)
  let deleted_files := old.files.filterMap (fun (file_name, old_file) =>
    match new.files.lookup file_name with
    | some _ => none
    | none => some ⟨file_name, push_text_diff_changes (coerceText old_file) ""⟩)
  let added_files := new.files.filterMap (fun (file_name, new_file) =>
    match old.files.lookup file_name with
    | some _ => none
    | none => some ⟨file_name, push_text_diff_changes "" (coerceText new_file)⟩)
  ⟨added_files, deleted_files, modified_files⟩

/-! ## Divergence scoring (`inference/engine.rs`) -/

/-- From `engine.rs`: `ADD_FILE_P`. -/
def ADD_FILE_P : ℚ := 2
/-- From `engine.rs`: `DELETE_FILE_P`. -/
def DELETE_FILE_P : ℚ := 4
/-- From `engine.rs`: `MODIFY_FILE_P`. -/
def MODIFY_FILE_P : ℚ := 1
/-- From `engine.rs`: `ADD_LINE_P`. -/
def ADD_LINE_P : ℚ := 0.02
/-- From `engine.rs`: `DELETE_LINE_P`. -/
def DELETE_LINE_P : ℚ := 0.05

/-- From `engine.rs`: `count_tag`. -/
def count_tag (changes : List TextChange) (tag : ChangeTag) : Nat :=
  (changes.filter (fun c => c.tag = tag)).length

/-- Modelled from the spec: `Pair` (declared in the newer `types.rs`,
which is missing from `src/`; an identical declaration appears in the
older `src/engine.rs`): a forward/backward pair of scores with
componentwise addition. -/
structure Pair where
  fst : ℚ
  snd : ℚ
deriving DecidableEq, Repr

instance : Add Pair := ⟨fun a b => ⟨a.fst + b.fst, a.snd + b.snd⟩⟩

theorem Pair.add_def (a b : Pair) : a + b = ⟨a.fst + b.fst, a.snd + b.snd⟩ := rfl

/-- From `engine.rs`: `file_heuristic` — per-file line-change penalty pair,
with insert/delete counts capped at 50. -/
def file_heuristic (file_change : FileChange) : Pair :=
  let adds : ℚ := (min (count_tag file_change.changes ChangeTag.insert) 50 : Nat)
  let deletes : ℚ := (min (count_tag file_change.changes ChangeTag.delete) 50 : Nat)
  ⟨adds * ADD_LINE_P + deletes * DELETE_LINE_P,
   adds * DELETE_LINE_P + deletes * ADD_LINE_P⟩

/-- Modelled from the spec: `DivCalcResult` (declared in the newer
`types.rs`, missing from `src/`; its fields and zero-initialising `new()`
are pinned by its construction sites in `inference/engine.rs` and §3 of
the spec): per-direction counts of added/deleted/modified files plus the
scalar divergence. -/
structure DivCalcResult where
  added : Nat
  deleted : Nat
  modified : Nat
  divergence : ℚ
deriving DecidableEq, Repr

/-- Embedding of `DivCalcResult::new()` — all-zero result (the diagonal default). -/
def DivCalcResult.new : DivCalcResult := ⟨0, 0, 0, 0⟩

/-- From `engine.rs`: `calculate_divergences` — fold the penalty pairs over the
three groups (the source's three `for` loops with `+=`), then package the
forward and backward results. -/
def calculate_divergences (text_diff : TextualVersionDiff) :
    DivCalcResult × DivCalcResult :=
  let fb0 : Pair := ⟨0, 0⟩
  let fb1 := text_diff.added_files.foldl
    (fun acc fc => acc + ⟨ADD_FILE_P, DELETE_FILE_P⟩ + file_heuristic fc) fb0
  let fb2 := text_diff.deleted_files.foldl
    (fun acc fc => acc + ⟨DELETE_FILE_P, ADD_FILE_P⟩ + file_heuristic fc) fb1
  let fb3 := text_diff.modified_files.foldl
    (fun acc fc => acc + ⟨MODIFY_FILE_P, MODIFY_FILE_P⟩ + file_heuristic fc) fb2
  let added := text_diff.added_files.length
  let deleted := text_diff.deleted_files.length
  let modified := text_diff.modified_files.length
  (⟨added, deleted, modified, fb3.fst⟩, ⟨deleted, added, modified, fb3.snd⟩)

/-! ## MSA solver (`inference/edmonds.rs`) -/

/-- Total score of a parent vector on a score matrix: `Σ scores[P[i]][i]`
over the vertices that have a parent. -/
def msaScore (scores : Nat → Nat → ℚ) (p : List (Option Nat)) : ℚ :=
  ((List.range p.length).map (fun i =>
    match p.getD i none with
    | some par => scores par i
    | none => 0)).sum

/-- Does vertex `i` reach `root` by following parent pointers of `p`
within `fuel` steps? -/
def reachesRoot (p : List (Option Nat)) (root : Nat) : Nat → Nat → Bool
  | 0, i => i == root
  | fuel + 1, i =>
    i == root ||
      match p.getD i none with
      | none => false
      | some j => reachesRoot p root fuel j

/-- Is `p` a parent vector of a spanning arborescence of the `n`-vertex
complete digraph rooted at `root`: length `n`, the root parentless, every
other vertex with a parent `< n`, and every vertex reaching the root
(hence no cycles). -/
def isArborescence (n root : Nat) (p : List (Option Nat)) : Bool :=
  p.length == n &&
  p.getD root none == none &&
  (List.range n).all (fun i =>
    i == root ||
      match p.getD i none with
      | some j => j < n && j ≠ i
      | none => false) &&
  (List.range n).all (fun i => reachesRoot p root n i)

/-- All parent vectors of length `n` in which `root` is parentless and
every other vertex has some parent `< n` other than itself. -/
def parentVectors (n root : Nat) : List (List (Option Nat)) :=
  (List.range n).foldr
    (fun i acc =>
      (if i = root then [none] else ((List.range n).filter (fun j => j ≠ i)).map some).flatMap
        (fun c => acc.map (fun v => c :: v)))
    [[]]

/-- Modelled from the spec: the external `chu_liu_edmonds` crate (not part
of this repository). Its contract — pinned by the repository's own tests
`test_find_msa_simple_mst` and `test_find_msa_simple_msa` in
`edmonds.rs`, which feed `find_msa` (negation composed with this solver)
a matrix and assert the arborescence of minimal total weight — is that it
returns a spanning arborescence of **maximal** total score of its input.
Modelled by exhaustive maximisation over all valid parent vectors. -/
def chu_liu_edmonds (scores : Nat → Nat → ℚ) (n root : Nat) : List (Option Nat) :=
  match ((parentVectors n root).filter (isArborescence n root)).argmax (msaScore scores) with
  | some p => p
  | none => []

/-- From `edmonds.rs`: `find_msa` — negate the score matrix, then run
`chu_liu_edmonds` on it. -/
def find_msa (scores : Nat → Nat → ℚ) (n root : Nat) : List (Option Nat) :=
  let new_scores := fun i j => -(scores i j)
  chu_liu_edmonds new_scores n root

/-! ## Tree primitive (`types.rs`) -/

/-- From `types.rs`: `TreeNode<T>` — a value plus an ordered list of children. -/
inductive TreeNode (T : Type) where
  | mk : T → List (TreeNode T) → TreeNode T

/-- The node's value. -/
def TreeNode.value {T : Type} : TreeNode T → T
  | .mk v _ => v

/-- The node's children. -/
def TreeNode.children {T : Type} : TreeNode T → List (TreeNode T)
  | .mk _ cs => cs

/-- Embedding of `impl PartialEq for TreeNode` (`types.rs`): values equal, equally many
children, and every child of the left node equal to some child of the
right (the labelled-`continue` double loop of the source). -/
def treeEq {T : Type} [DecidableEq T] : TreeNode T → TreeNode T → Bool
  | .mk v cs, .mk w ds =>
    if v ≠ w ∨ cs.length ≠ ds.length then false
    else cs.attach.all (fun child_a => ds.any (fun child_b => treeEq child_a.1 child_b))
termination_by a => sizeOf a
decreasing_by
  have := List.sizeOf_lt_of_mem child_a.2
  simp only [TreeNode.mk.sizeOf_spec]
  omega

/-- From `types.rs`: `TreeNode::map_with_parent`, with a recursion budget: any
fuel `≥` the tree's depth computes the Rust method (the fuel only keeps
the definition structurally recursive, hence kernel-reducible; the engine
below instantiates it with a bound on the depth of its tree). -/
def mapWithParentF {T U : Type} (f : T → Option T → U) :
    Nat → TreeNode T → Option T → TreeNode U
  | 0, .mk v _, parent => .mk (f v parent) []
  | fuel + 1, .mk v cs, parent =>
    .mk (f v parent) (cs.map (fun c => mapWithParentF f fuel c (some v)))

/-- From `edmonds.rs`: `assemble_forest` — turn a parent vector into the list
of trees hanging under `parent`, children enumerated in index order. The
recursion budget is irrelevant at any fuel `≥` the depth of the forest;
the engine's call site passes `parents.length + 1`, enough for any
parent vector that is functional (an ancestor chain starting from `none`
cannot repeat a vertex). -/
def assembleForestF : Nat → List (Option Nat) → Option Nat → List (TreeNode Nat)
  | 0, _, _ => []
  | fuel + 1, parents, parent =>
    (parents.enum.filter (fun tp => tp.2 == parent)).map
      (fun tp => .mk tp.1 (assembleForestF fuel parents (some tp.1)))

/-- From `edmonds.rs`: `assemble_forest(parents, parent)`. -/
def assemble_forest (parents : List (Option Nat)) (parent : Option Nat) :
    List (TreeNode Nat) :=
  assembleForestF (parents.length + 1) parents parent

/-! ## Comparison driver and tree assembly (`inference/engine.rs`) -/

/-- Modelled from the spec: `DiffInfo` (declared in the newer `types.rs`,
missing from `src/`; its five fields are pinned by its construction site
in `inference/engine.rs::infer_version_tree` and by §6.2 of the spec):
snapshot name, per-edge counts, and the edge's divergence score. -/
structure DiffInfo where
  name : String
  added : Nat
  deleted : Nat
  modified : Nat
  divergence : ℚ
deriving DecidableEq, Repr

/-- Indexing `versions_arc[i]` (always in range at the call sites). -/
def vget (versions : List Version) (i : Nat) : Version :=
  versions.getD i ⟨"", "", []⟩

/-- From `engine.rs`: the pair list `to_compare` — `(i, j)` for
`0 ≤ i < j < n`, built exactly as the two nested `for` loops do. -/
def toCompare (n : Nat) : List (Nat × Nat) :=
  (List.range n).flatMap (fun j => (List.range j).map (fun i => (i, j)))

/-- From `engine.rs`: the `map_op` results — one
`(i, j, calculate_divergences(text_diff_versions(v_i, v_j)))` triple per
pair. (The parallel and sequential drivers produce this same list.) -/
def comparisonResults (versions : List Version) :
    List (Nat × Nat × (DivCalcResult × DivCalcResult)) :=
  (toCompare versions.length).map (fun p =>
    (p.1, p.2, calculate_divergences
      (text_diff_versions (vget versions p.1) (vget versions p.2))))

/-- Point update of a matrix represented as a function. -/
def mupd {α : Type} (m : Nat → Nat → α) (r c : Nat) (v : α) : Nat → Nat → α :=
  fun i j => if i = r ∧ j = c then v else m i j

/-- From `engine.rs`: the `divergences` matrix — starts as `Array2::zeros`,
then each result installs `forward.divergence` at `(i, j)` and
`backward.divergence` at `(j, i)`. -/
def divergencesMatrix (versions : List Version) : Nat → Nat → ℚ :=
  (comparisonResults versions).foldl
    (fun m r => mupd (mupd m r.1 r.2.1 r.2.2.1.divergence) r.2.1 r.1 r.2.2.2.divergence)
    (fun _ _ => 0)

/-- From `engine.rs`: the `div_calc_res` matrix — starts filled with
`DivCalcResult::new()`, then each result installs `forward` at `(i, j)`
and `backward` at `(j, i)`. -/
def divCalcResMatrix (versions : List Version) : Nat → Nat → DivCalcResult :=
  (comparisonResults versions).foldl
    (fun m r => mupd (mupd m r.1 r.2.1 r.2.2.1) r.2.1 r.1 r.2.2.2)
    (fun _ _ => DivCalcResult.new)

/-- From `engine.rs`: the `null_version` — the synthetic `Empty` snapshot. -/
def nullVersion : Version := ⟨"Empty", ".", []⟩

/-- From `engine.rs`: `infer_version_tree` — prepend `Empty`, populate the two
matrices from all pairs, extract the MSA rooted at 0, assemble the
forest, and map the index tree to a `DiffInfo` tree. The
`assert_eq!(forest.len(), 1)` is modelled by returning `none` (the fatal
panic) when the forest does not have exactly one tree. `mapWithParentF`
is instantiated with fuel `msa.length + 1`, a bound on the depth of any
forest assembled from an `msa.length`-entry parent vector. -/
def infer_version_tree (versions₀ : List Version) : Option (TreeNode DiffInfo) :=
  let versions := nullVersion :: versions₀
  let n := versions.length
  let divergences := divergencesMatrix versions
  let div_calc_res := divCalcResMatrix versions
  let msa := find_msa divergences n 0
  let forest := assemble_forest msa none
  if forest.length = 1 then
    match forest with
    | tree :: _ =>
      some (mapWithParentF
        (fun i parent =>
          let p := parent.getD i
          let forward := div_calc_res p i
          ⟨(vget versions i).name, forward.added, forward.deleted,
           forward.modified, forward.divergence⟩)
        (msa.length + 1) tree none)
    | [] => none
  else none

/-! ## Persisted tree format (`bin/vhi.rs::save_version_tree`) -/

/-- A JSON value (the shape `serde_json` produces; numbers are split by
kind the way the spec's §6.2 grammar does). -/
inductive Json where
  | str : String → Json
  | uint : Nat → Json
  | float : ℚ → Json
  | arr : List Json → Json
  | obj : List (String × Json) → Json

/-- Modelled from the spec: `serde_json` serialisation of the derived
`Serialize` impl of `DiffInfo` (the derive and `serde_json` are external
crates): a JSON object with the five fields in declaration order. -/
def DiffInfo.toJson (d : DiffInfo) : Json :=
  .obj [("name", .str d.name), ("added", .uint d.added),
        ("deleted", .uint d.deleted), ("modified", .uint d.modified),
        ("divergence", .float d.divergence)]

/-- Modelled from the spec: `serde_json` serialisation of the derived
`Serialize` impl of `TreeNode<DiffInfo>` (persisted by
`bin/vhi.rs::save_version_tree`): `{"value": ..., "children": [...]}`,
recursively. Fueled like `mapWithParentF`; any fuel `≥` the tree's depth
computes the serialisation. -/
def treeToJsonF : Nat → TreeNode DiffInfo → Json
  | 0, .mk v _ => .obj [("value", v.toJson), ("children", .arr [])]
  | fuel + 1, .mk v cs =>
    .obj [("value", v.toJson), ("children", .arr (cs.map (treeToJsonF fuel)))]

/-- The JSON shape claimed for every node of the persisted tree: an
object whose `value` is an object carrying exactly the five `DiffInfo`
fields — `name` (a string), `added`, `deleted`, `modified` (unsigned
integers) and `divergence` (a float) — and whose `children` array
consists of nodes of the same shape. -/
inductive CarriesDiffInfoFields : Json → Prop where
  | node (name : String) (added deleted modified : Nat) (divergence : ℚ)
      (kids : List Json) :
      (∀ k ∈ kids, CarriesDiffInfoFields k) →
      CarriesDiffInfoFields (.obj
        [("value", .obj [("name", .str name), ("added", .uint added),
            ("deleted", .uint deleted), ("modified", .uint modified),
            ("divergence", .float divergence)]),
         ("children", .arr kids)])

/-- A version with every entry for `path` removed from its file map (used
to state that a file contributes nothing to a diff). -/
def eraseFile (v : Version) (path : String) : Version :=
  ⟨v.name, v.path, v.files.filter (fun p => p.1 != path)⟩

/-! ## Concrete instances used in witnesses and counterexamples -/

/-- Concrete old version (mirrors the fixture of the `diffing.rs` test). -/
def c2Old : Version :=
  ⟨"old", ".", [("modified", ⟨some "ok_code\n"⟩), ("deleted", ⟨some "bad_code\n"⟩)]⟩

/-- Concrete new version (mirrors the fixture of the `diffing.rs` test). -/
def c2New : Version :=
  ⟨"new", ".", [("modified", ⟨some "better_code\n"⟩), ("added", ⟨some "good_code\n"⟩)]⟩

/-- Old version with a non-text (sentinel) file `bin` and a text file. -/
def c10Old : Version := ⟨"old", ".", [("bin", ⟨none⟩), ("a", ⟨some "x\n"⟩)]⟩

/-- New version where `bin` is the empty text and the text file changed. -/
def c10New : Version := ⟨"new", ".", [("bin", ⟨some ""⟩), ("a", ⟨some "x\ny\n"⟩)]⟩

/-- The 4×4 weight matrix of the claim (also the fixture of
`edmonds.rs::test_find_msa_simple_msa`). -/
def c4Matrix : Nat → Nat → ℚ := fun i j =>
  (([[0, 99, 100, 99], [99, 0, 10, 10], [100, 1, 0, 5],
     [99, 2, 5, 0]].getD i []).getD j 0 : ℚ)

/-- A leaf tree with value 0. -/
def c7A : TreeNode Nat := .mk 0 []

/-- A leaf tree with value 1. -/
def c7B : TreeNode Nat := .mk 1 []

/-- A node whose children are the multiset `{A, A}`. -/
def c7Left : TreeNode Nat := .mk 5 [c7A, c7A]

/-- A node whose children are the multiset `{A, B}`. -/
def c7Right : TreeNode Nat := .mk 5 [c7A, c7B]

/-- Two input snapshots sharing the display name `v`. -/
def c9DupInput : List Version :=
  [⟨"v", "pa", [("a", ⟨some "x\n"⟩)]⟩, ⟨"v", "pb", [("a", ⟨some "x\ny\n"⟩)]⟩]

/-- An input snapshot literally named `Empty`. -/
def c9EmptyNamedInput : List Version :=
  [⟨"Empty", "pc", [("a", ⟨some "x\n"⟩)]⟩]

/-! ## Helper lemmas -/

theorem Pair.add_fst (a b : Pair) : (a + b).fst = a.fst + b.fst := rfl

theorem Pair.add_snd (a b : Pair) : (a + b).snd = a.snd + b.snd := rfl

/-- Closed form of the scoring loops' accumulator, first component. -/
theorem foldl_penalty_fst (c : Pair) (l : List FileChange) (init : Pair) :
    (l.foldl (fun acc fc => acc + c + file_heuristic fc) init).fst =
      init.fst + l.length * c.fst +
        (l.map (fun fc => (file_heuristic fc).fst)).sum := by
  induction l generalizing init with
  | nil => simp
  | cons fc l ih =>
    simp only [List.foldl_cons, ih, Pair.add_fst, List.length_cons, List.map_cons,
      List.sum_cons]
    push_cast
    ring

/-- Closed form of the scoring loops' accumulator, second component. -/
theorem foldl_penalty_snd (c : Pair) (l : List FileChange) (init : Pair) :
    (l.foldl (fun acc fc => acc + c + file_heuristic fc) init).snd =
      init.snd + l.length * c.snd +
        (l.map (fun fc => (file_heuristic fc).snd)).sum := by
  induction l generalizing init with
  | nil => simp
  | cons fc l ih =>
    simp only [List.foldl_cons, ih, Pair.add_snd, List.length_cons, List.map_cons,
      List.sum_cons]
    push_cast
    ring

/-- With nodup keys, a list entry is exactly what `lookup` finds. -/
theorem lookup_eq_some_of_mem {β : Type} {l : List (String × β)} {k : String} {v : β}
    (nd : (l.map Prod.fst).Nodup) (h : (k, v) ∈ l) : l.lookup k = some v := by
  induction l with
  | nil => cases h
  | cons p l ih =>
    simp only [List.map_cons, List.nodup_cons] at nd
    rcases List.mem_cons.mp h with hm | hm
    · subst hm
      exact List.lookup_cons_self
    · have hne : k ≠ p.1 := by
        intro hk
        exact nd.1 (hk ▸ List.mem_map_of_mem Prod.fst hm)
      obtain ⟨p1, p2⟩ := p
      rw [List.lookup_cons, show (k == p1) = false from beq_eq_false_iff_ne.mpr hne]
      exact ih nd.2 hm

/-- Some entry for `k` exists as soon as one membership does. -/
theorem lookup_isSome_of_mem {β : Type} {l : List (String × β)} {k : String} {v : β}
    (h : (k, v) ∈ l) : ∃ w, l.lookup k = some w :=
  Option.isSome_iff_exists.mp
    (List.lookup_isSome_iff.mpr ⟨(k, v), h, by simp⟩)

/-- A found entry is a member of the list. -/
theorem mem_of_lookup_eq_some {β : Type} {l : List (String × β)} {k : String} {v : β}
    (h : l.lookup k = some v) : (k, v) ∈ l := by
  obtain ⟨l₁, l₂, rfl, -⟩ := List.lookup_eq_some_iff.mp h
  simp

/-- Removing entries of an unrelated key does not change `lookup`. -/
theorem lookup_filter_ne {β : Type} {l : List (String × β)} {k path : String}
    (h : k ≠ path) :
    (l.filter (fun p => p.1 != path)).lookup k = l.lookup k := by
  induction l with
  | nil => rfl
  | cons p l ih =>
    obtain ⟨p1, p2⟩ := p
    by_cases hp : p1 = path
    · subst hp
      rw [List.filter_cons]
      simp only [show (((p1, p2).1 != p1) = false) by simp, Bool.false_eq_true,
        if_false]
      rw [ih, List.lookup_cons,
        show (k == p1) = false from beq_eq_false_iff_ne.mpr h]
    · rw [List.filter_cons]
      simp only [show (((p1, p2).1 != path) = true) from bne_iff_ne.mpr hp, if_true]
      rw [List.lookup_cons, List.lookup_cons]
      cases hk : k == p1 with
      | true => rfl
      | false => exact ih

/-- A `filterMap` in which every entry keyed `path` yields `none`, and
which agrees with `g` elsewhere, equals the `filterMap` of `g` over the
list with key `path` erased. -/
theorem filterMap_erase_key {α β : Type} {l : List (String × α)}
    {f g : String × α → Option β} {path : String}
    (h1 : ∀ p ∈ l, p.1 = path → f p = none)
    (h2 : ∀ p ∈ l, p.1 ≠ path → f p = g p) :
    l.filterMap f = (l.filter (fun p => p.1 != path)).filterMap g := by
  induction l with
  | nil => rfl
  | cons p l ih =>
    have ih' := ih (fun q hq => h1 q (List.mem_cons_of_mem _ hq))
      (fun q hq => h2 q (List.mem_cons_of_mem _ hq))
    by_cases hp : p.1 = path
    · rw [List.filterMap_cons, h1 p (List.mem_cons_self p l) hp, List.filter_cons]
      simp only [show ((p.1 != path) = false) by simp [hp], Bool.false_eq_true,
        if_false]
      exact ih'
    · rw [List.filterMap_cons, h2 p (List.mem_cons_self p l) hp, List.filter_cons]
      simp only [show ((p.1 != path) = true) from bne_iff_ne.mpr hp, if_true]
      rw [List.filterMap_cons, ih']

/-- Membership in the added group of `text_diff_versions`. -/
theorem mem_added_names (old new : Version) (path : String) :
    path ∈ (text_diff_versions old new).added_files.map FileChange.filename ↔
      (∃ fd, (path, fd) ∈ new.files) ∧ old.files.lookup path = none := by
  constructor
  · intro h
    simp only [text_diff_versions, List.mem_map, List.mem_filterMap] at h
    obtain ⟨fc, ⟨⟨k, fd⟩, hmem, hf⟩, hname⟩ := h
    cases hlk : old.files.lookup k with
    | some w => rw [hlk] at hf; simp at hf
    | none =>
      rw [hlk] at hf
      simp only [Option.some.injEq] at hf
      have hk : fc.filename = k := by rw [← hf]
      rw [hname] at hk
      subst hk
      exact ⟨⟨fd, hmem⟩, hlk⟩
  · rintro ⟨⟨fd, hmem⟩, hlk⟩
    simp only [text_diff_versions, List.mem_map, List.mem_filterMap]
    exact ⟨⟨path, push_text_diff_changes "" (coerceText fd)⟩,
      ⟨⟨(path, fd), hmem, by simp [hlk]⟩, rfl⟩⟩

/-- Membership in the deleted group of `text_diff_versions`. -/
theorem mem_deleted_names (old new : Version) (path : String) :
    path ∈ (text_diff_versions old new).deleted_files.map FileChange.filename ↔
      (∃ fd, (path, fd) ∈ old.files) ∧ new.files.lookup path = none := by
  constructor
  · intro h
    simp only [text_diff_versions, List.mem_map, List.mem_filterMap] at h
    obtain ⟨fc, ⟨⟨k, fd⟩, hmem, hf⟩, hname⟩ := h
    cases hlk : new.files.lookup k with
    | some w => rw [hlk] at hf; simp at hf
    | none =>
      rw [hlk] at hf
      simp only [Option.some.injEq] at hf
      have hk : fc.filename = k := by rw [← hf]
      rw [hname] at hk
      subst hk
      exact ⟨⟨fd, hmem⟩, hlk⟩
  · rintro ⟨⟨fd, hmem⟩, hlk⟩
    simp only [text_diff_versions, List.mem_map, List.mem_filterMap]
    exact ⟨⟨path, push_text_diff_changes (coerceText fd) ""⟩,
      ⟨⟨(path, fd), hmem, by simp [hlk]⟩, rfl⟩⟩

/-- Membership in the modified group of `text_diff_versions`. -/
theorem mem_modified_names (old new : Version) (path : String) :
    path ∈ (text_diff_versions old new).modified_files.map FileChange.filename ↔
      ∃ ofd nfd, (path, ofd) ∈ old.files ∧ new.files.lookup path = some nfd ∧
        coerceText ofd ≠ coerceText nfd := by
  constructor
  · intro h
    simp only [text_diff_versions, List.mem_map, List.mem_filterMap] at h
    obtain ⟨fc, ⟨⟨k, ofd⟩, hmem, hf⟩, hname⟩ := h
    cases hlk : new.files.lookup k with
    | none => rw [hlk] at hf; simp at hf
    | some nfd =>
      rw [hlk] at hf
      dsimp only at hf
      by_cases hco : coerceText ofd ≠ coerceText nfd
      · rw [if_pos hco] at hf
        simp only [Option.some.injEq] at hf
        have hk : fc.filename = k := by rw [← hf]
        rw [hname] at hk
        subst hk
        exact ⟨ofd, nfd, hmem, hlk, hco⟩
      · rw [if_neg hco] at hf
        simp at hf
  · rintro ⟨ofd, nfd, hmem, hlk, hco⟩
    simp only [text_diff_versions, List.mem_map, List.mem_filterMap]
    exact ⟨⟨path, push_text_diff_changes (coerceText ofd) (coerceText nfd)⟩,
      ⟨⟨(path, ofd), hmem, by simp [hlk, if_pos hco]⟩, rfl⟩⟩

/-- Summing the negated values negates the sum. -/
theorem sum_map_neg {α : Type} (l : List α) (g : α → ℚ) :
    (l.map (fun a => -(g a))).sum = -((l.map g).sum) := by
  induction l with
  | nil => simp
  | cons a l ih => simp [ih]; ring

/-- Negating the score matrix negates every parent vector's total score. -/
theorem msaScore_neg (m : Nat → Nat → ℚ) (p : List (Option Nat)) :
    msaScore (fun i j => -(m i j)) p = -(msaScore m p) := by
  unfold msaScore
  have hfun : (fun i => match p.getD i none with
      | some par => -(m par i)
      | none => (0 : ℚ)) = fun i => -(match p.getD i none with
      | some par => m par i
      | none => (0 : ℚ)) := by
    funext i
    cases p.getD i none <;> simp
  rw [hfun, sum_map_neg]

/-- Filtering an enumerated list on the entry component keeps as many
elements as filtering the plain list. -/
theorem enumFrom_filter_snd_length {α : Type} (q : α → Bool) :
    ∀ (k : Nat) (l : List α),
      ((List.enumFrom k l).filter (fun tp => q tp.2)).length = (l.filter q).length := by
  intro k l
  induction l generalizing k with
  | nil => rfl
  | cons a l ih =>
    simp only [List.enumFrom_cons, List.filter_cons]
    cases q a <;> simp [ih]

/-- The function `file_heuristic` produces non-negative penalties in both directions. -/
theorem file_heuristic_nonneg (fc : FileChange) :
    0 ≤ (file_heuristic fc).fst ∧ 0 ≤ (file_heuristic fc).snd := by
  constructor <;>
    · simp only [file_heuristic, ADD_LINE_P, DELETE_LINE_P]
      positivity

/-- Both divergences computed by `calculate_divergences` are
non-negative. -/
theorem calculate_divergences_nonneg (td : TextualVersionDiff) :
    0 ≤ (calculate_divergences td).1.divergence ∧
    0 ≤ (calculate_divergences td).2.divergence := by
  have hsum_fst : ∀ (l : List FileChange),
      0 ≤ (l.map (fun fc => (file_heuristic fc).fst)).sum := by
    intro l
    refine List.sum_nonneg ?_
    intro x hx
    obtain ⟨fc, -, rfl⟩ := List.mem_map.mp hx
    exact (file_heuristic_nonneg fc).1
  have hsum_snd : ∀ (l : List FileChange),
      0 ≤ (l.map (fun fc => (file_heuristic fc).snd)).sum := by
    intro l
    refine List.sum_nonneg ?_
    intro x hx
    obtain ⟨fc, -, rfl⟩ := List.mem_map.mp hx
    exact (file_heuristic_nonneg fc).2
  constructor
  · show (0 : ℚ) ≤ (_ : Pair).fst
    simp only [calculate_divergences, foldl_penalty_fst, ADD_FILE_P, DELETE_FILE_P,
      MODIFY_FILE_P]
    have h1 := hsum_fst td.added_files
    have h2 := hsum_fst td.deleted_files
    have h3 := hsum_fst td.modified_files
    have c1 : (0 : ℚ) ≤ (td.added_files.length : ℚ) * 2 := by positivity
    have c2 : (0 : ℚ) ≤ (td.deleted_files.length : ℚ) * 4 := by positivity
    have c3 : (0 : ℚ) ≤ (td.modified_files.length : ℚ) * 1 := by positivity
    linarith
  · show (0 : ℚ) ≤ (_ : Pair).snd
    simp only [calculate_divergences, foldl_penalty_snd, ADD_FILE_P, DELETE_FILE_P,
      MODIFY_FILE_P]
    have h1 := hsum_snd td.added_files
    have h2 := hsum_snd td.deleted_files
    have h3 := hsum_snd td.modified_files
    have c1 : (0 : ℚ) ≤ (td.added_files.length : ℚ) * 4 := by positivity
    have c2 : (0 : ℚ) ≤ (td.deleted_files.length : ℚ) * 2 := by positivity
    have c3 : (0 : ℚ) ≤ (td.modified_files.length : ℚ) * 1 := by positivity
    linarith

/-- Every pair the driver enumerates has `i < j`. -/
theorem mem_toCompare {n : Nat} {p : Nat × Nat} (h : p ∈ toCompare n) :
    p.1 < p.2 := by
  simp only [toCompare, List.mem_flatMap, List.mem_map, List.mem_range] at h
  obtain ⟨j, -, i, hi, rfl⟩ := h
  exact hi

/-- The divergence-matrix fold preserves a zero diagonal and
non-negativity, provided every installed result sits off the diagonal
and carries non-negative divergences. -/
theorem matrix_fold_invariant
    (rs : List (Nat × Nat × (DivCalcResult × DivCalcResult)))
    (m : Nat → Nat → ℚ)
    (hdiag : ∀ i, m i i = 0) (hpos : ∀ i j, 0 ≤ m i j)
    (hrs : ∀ r ∈ rs, r.1 ≠ r.2.1 ∧ 0 ≤ r.2.2.1.divergence ∧ 0 ≤ r.2.2.2.divergence) :
    (∀ i, (rs.foldl (fun m r =>
        mupd (mupd m r.1 r.2.1 r.2.2.1.divergence) r.2.1 r.1 r.2.2.2.divergence) m) i i = 0) ∧
    (∀ i j, 0 ≤ (rs.foldl (fun m r =>
        mupd (mupd m r.1 r.2.1 r.2.2.1.divergence) r.2.1 r.1 r.2.2.2.divergence) m) i j) := by
  induction rs generalizing m with
  | nil => exact ⟨hdiag, hpos⟩
  | cons r rs ih =>
    obtain ⟨hne, hf, hb⟩ := hrs r (List.mem_cons_self r rs)
    refine ih _ ?_ ?_ (fun r' hr' => hrs r' (List.mem_cons_of_mem _ hr'))
    · intro i
      simp only [mupd]
      rw [if_neg (by rintro ⟨h1, h2⟩; exact hne (h2.symm.trans h1)),
        if_neg (by rintro ⟨h1, h2⟩; exact hne (h1.symm.trans h2))]
      exact hdiag i
    · intro i j
      simp only [mupd]
      split
      · exact hb
      · split
        · exact hf
        · exact hpos i j

/-! ## Claims -/

/-- C1: for every `TextualVersionDiff`, `calculate_divergences` returns
`(forward, backward)` where `forward.divergence` is 2.0 per added file,
plus 4.0 per deleted file, plus 1.0 per modified file, plus, for each
file in any group, `min(insertedLines, 50) * 0.02 +
min(deletedLines, 50) * 0.05`; and `backward.divergence` is the same sum
with the add and delete penalties swapped. -/
theorem claim_c1_divergence_formula (td : TextualVersionDiff) :
    (calculate_divergences td).1.divergence =
      2 * td.added_files.length + 4 * td.deleted_files.length +
        1 * td.modified_files.length +
        ((td.added_files ++ td.deleted_files ++ td.modified_files).map (fun fc =>
          (min (count_tag fc.changes ChangeTag.insert) 50 : ℚ) * 0.02 +
          (min (count_tag fc.changes ChangeTag.delete) 50 : ℚ) * 0.05)).sum ∧
    (calculate_divergences td).2.divergence =
      4 * td.added_files.length + 2 * td.deleted_files.length +
        1 * td.modified_files.length +
        ((td.added_files ++ td.deleted_files ++ td.modified_files).map (fun fc =>
          (min (count_tag fc.changes ChangeTag.insert) 50 : ℚ) * 0.05 +
          (min (count_tag fc.changes ChangeTag.delete) 50 : ℚ) * 0.02)).sum := by
  have hfst : (fun fc => (file_heuristic fc).fst) = (fun fc =>
      (min (count_tag fc.changes ChangeTag.insert) 50 : ℚ) * 0.02 +
      (min (count_tag fc.changes ChangeTag.delete) 50 : ℚ) * 0.05) := by
    funext fc
    simp only [file_heuristic, ADD_LINE_P, DELETE_LINE_P]
    push_cast
    ring
  have hsnd : (fun fc => (file_heuristic fc).snd) = (fun fc =>
      (min (count_tag fc.changes ChangeTag.insert) 50 : ℚ) * 0.05 +
      (min (count_tag fc.changes ChangeTag.delete) 50 : ℚ) * 0.02) := by
    funext fc
    simp only [file_heuristic, ADD_LINE_P, DELETE_LINE_P]
    push_cast
    ring
  constructor
  · simp only [calculate_divergences, foldl_penalty_fst, hfst, List.map_append,
      List.sum_append, ADD_FILE_P, DELETE_FILE_P, MODIFY_FILE_P]
    ring
  · simp only [calculate_divergences, foldl_penalty_snd, hsnd, List.map_append,
      List.sum_append, ADD_FILE_P, DELETE_FILE_P, MODIFY_FILE_P]
    ring

/-- C2: for every pair of versions `(old, new)`,
`text_diff_versions(old, new)` places every file path present in
`old.files` or `new.files` into at most one of the groups
added/deleted/modified (exactly one of the groups or none of them), and a
path present in both versions appears in no group exactly when the two
text contents are equal after coercing the non-text sentinel to the empty
string. -/
theorem claim_c2_partition (old new : Version)
    (hnd_old : (old.files.map Prod.fst).Nodup)
    (hnd_new : (new.files.map Prod.fst).Nodup)
    (path : String)
    (hmem : path ∈ old.files.map Prod.fst ∨ path ∈ new.files.map Prod.fst) :
    (¬(path ∈ (text_diff_versions old new).added_files.map FileChange.filename ∧
        path ∈ (text_diff_versions old new).deleted_files.map FileChange.filename) ∧
      ¬(path ∈ (text_diff_versions old new).added_files.map FileChange.filename ∧
        path ∈ (text_diff_versions old new).modified_files.map FileChange.filename) ∧
      ¬(path ∈ (text_diff_versions old new).deleted_files.map FileChange.filename ∧
        path ∈ (text_diff_versions old new).modified_files.map FileChange.filename)) ∧
    (∀ ofd nfd, (path, ofd) ∈ old.files → (path, nfd) ∈ new.files →
      ((path ∉ (text_diff_versions old new).added_files.map FileChange.filename ∧
        path ∉ (text_diff_versions old new).deleted_files.map FileChange.filename ∧
        path ∉ (text_diff_versions old new).modified_files.map FileChange.filename) ↔
        coerceText ofd = coerceText nfd)) := by
  constructor
  · refine ⟨?_, ?_, ?_⟩
    · rintro ⟨hA, hD⟩
      obtain ⟨-, hAnone⟩ := (mem_added_names old new path).mp hA
      obtain ⟨⟨fd, hfd⟩, -⟩ := (mem_deleted_names old new path).mp hD
      obtain ⟨w, hw⟩ := lookup_isSome_of_mem hfd
      rw [hAnone] at hw
      cases hw
    · rintro ⟨hA, hM⟩
      obtain ⟨-, hAnone⟩ := (mem_added_names old new path).mp hA
      obtain ⟨ofd, nfd, hfd, -, -⟩ := (mem_modified_names old new path).mp hM
      obtain ⟨w, hw⟩ := lookup_isSome_of_mem hfd
      rw [hAnone] at hw
      cases hw
    · rintro ⟨hD, hM⟩
      obtain ⟨-, hDnone⟩ := (mem_deleted_names old new path).mp hD
      obtain ⟨ofd, nfd, -, hlk, -⟩ := (mem_modified_names old new path).mp hM
      rw [hDnone] at hlk
      cases hlk
  · intro ofd nfd ho hn
    have hAnot : path ∉ (text_diff_versions old new).added_files.map FileChange.filename := by
      intro hA
      obtain ⟨-, hAnone⟩ := (mem_added_names old new path).mp hA
      obtain ⟨w, hw⟩ := lookup_isSome_of_mem ho
      rw [hAnone] at hw
      cases hw
    have hDnot : path ∉ (text_diff_versions old new).deleted_files.map FileChange.filename := by
      intro hD
      obtain ⟨-, hDnone⟩ := (mem_deleted_names old new path).mp hD
      obtain ⟨w, hw⟩ := lookup_isSome_of_mem hn
      rw [hDnone] at hw
      cases hw
    have hMiff : path ∈ (text_diff_versions old new).modified_files.map FileChange.filename ↔
        coerceText ofd ≠ coerceText nfd := by
      rw [mem_modified_names]
      constructor
      · rintro ⟨ofd', nfd', ho', hlk', hne'⟩
        have e1 : ofd' = ofd := by
          have := lookup_eq_some_of_mem hnd_old ho'
          rw [lookup_eq_some_of_mem hnd_old ho] at this
          exact (Option.some.injEq _ _ ▸ this).symm ▸ rfl
        have e2 : nfd' = nfd := by
          have := hlk'
          rw [lookup_eq_some_of_mem hnd_new hn] at this
          cases this
          rfl
        rw [← e1, ← e2]
        exact hne'
      · intro hne
        exact ⟨ofd, nfd, ho, lookup_eq_some_of_mem hnd_new hn, hne⟩
    constructor
    · rintro ⟨-, -, hMnot⟩
      by_contra hne
      exact hMnot (hMiff.mpr hne)
    · intro heq
      exact ⟨hAnot, hDnot, fun hM => (hMiff.mp hM) heq⟩

/-- Witness for C2: the partition property instantiated on the concrete
fixture of the `diffing.rs` unit test, at the path `modified`. -/
theorem claim_c2_partition_witness :
    (c2Old.files.map Prod.fst).Nodup ∧
    (c2New.files.map Prod.fst).Nodup ∧
    ("modified" ∈ c2Old.files.map Prod.fst ∨
      "modified" ∈ c2New.files.map Prod.fst) ∧
    ((¬("modified" ∈ (text_diff_versions c2Old c2New).added_files.map FileChange.filename ∧
        "modified" ∈ (text_diff_versions c2Old c2New).deleted_files.map FileChange.filename) ∧
      ¬("modified" ∈ (text_diff_versions c2Old c2New).added_files.map FileChange.filename ∧
        "modified" ∈ (text_diff_versions c2Old c2New).modified_files.map FileChange.filename) ∧
      ¬("modified" ∈ (text_diff_versions c2Old c2New).deleted_files.map FileChange.filename ∧
        "modified" ∈ (text_diff_versions c2Old c2New).modified_files.map FileChange.filename)) ∧
    (∀ ofd nfd, ("modified", ofd) ∈ c2Old.files → ("modified", nfd) ∈ c2New.files →
      (("modified" ∉ (text_diff_versions c2Old c2New).added_files.map FileChange.filename ∧
        "modified" ∉ (text_diff_versions c2Old c2New).deleted_files.map FileChange.filename ∧
        "modified" ∉ (text_diff_versions c2Old c2New).modified_files.map FileChange.filename) ↔
        coerceText ofd = coerceText nfd))) :=
  ⟨by decide, by decide, by decide,
    claim_c2_partition c2Old c2New (by decide) (by decide) "modified" (by decide)⟩

/-- C10: in `text_diff_versions`, a file present in both versions is
classified using only its coerced text: a file whose content is the
non-text sentinel in both versions, or the sentinel in one version and
the empty string in the other, appears in no group, and the diff — hence
the divergence pair computed from it — is the one of the two versions
with that file removed. -/
theorem claim_c10_sentinel_file_ignored (old new : Version) (path : String)
    (ofd nfd : FileData)
    (hnd_old : (old.files.map Prod.fst).Nodup)
    (hnd_new : (new.files.map Prod.fst).Nodup)
    (ho : (path, ofd) ∈ old.files) (hn : (path, nfd) ∈ new.files)
    (hsent : ofd.text_content = none ∨ nfd.text_content = none)
    (heq : coerceText ofd = coerceText nfd) :
    (path ∉ (text_diff_versions old new).added_files.map FileChange.filename ∧
     path ∉ (text_diff_versions old new).deleted_files.map FileChange.filename ∧
     path ∉ (text_diff_versions old new).modified_files.map FileChange.filename) ∧
    text_diff_versions old new =
      text_diff_versions (eraseFile old path) (eraseFile new path) ∧
    calculate_divergences (text_diff_versions old new) =
      calculate_divergences
        (text_diff_versions (eraseFile old path) (eraseFile new path)) := by
  have hlko : old.files.lookup path = some ofd := lookup_eq_some_of_mem hnd_old ho
  have hlkn : new.files.lookup path = some nfd := lookup_eq_some_of_mem hnd_new hn
  have hnot :
      path ∉ (text_diff_versions old new).added_files.map FileChange.filename ∧
      path ∉ (text_diff_versions old new).deleted_files.map FileChange.filename ∧
      path ∉ (text_diff_versions old new).modified_files.map FileChange.filename := by
    refine ⟨?_, ?_, ?_⟩
    · intro hA
      obtain ⟨-, hAnone⟩ := (mem_added_names old new path).mp hA
      rw [hlko] at hAnone
      cases hAnone
    · intro hD
      obtain ⟨-, hDnone⟩ := (mem_deleted_names old new path).mp hD
      rw [hlkn] at hDnone
      cases hDnone
    · intro hM
      obtain ⟨ofd', nfd', ho', hlk', hne'⟩ := (mem_modified_names old new path).mp hM
      have e1 : ofd' = ofd := by
        have h1 := lookup_eq_some_of_mem hnd_old ho'
        rw [hlko] at h1
        cases h1
        rfl
      have e2 : nfd' = nfd := by
        rw [hlkn] at hlk'
        cases hlk'
        rfl
      rw [e1, e2] at hne'
      exact hne' heq
  have hdiff : text_diff_versions old new =
      text_diff_versions (eraseFile old path) (eraseFile new path) := by
    have hmod : (text_diff_versions old new).modified_files =
        (text_diff_versions (eraseFile old path) (eraseFile new path)).modified_files := by
      simp only [text_diff_versions, eraseFile]
      refine filterMap_erase_key ?_ ?_
      · rintro ⟨k, v⟩ hkv hk
        dsimp only at hk
        subst hk
        have hv : v = ofd := by
          have h1 := lookup_eq_some_of_mem hnd_old hkv
          rw [hlko] at h1
          cases h1
          rfl
        subst hv
        rw [hlkn]
        dsimp only
        rw [if_neg (by simpa using heq)]
      · rintro ⟨k, v⟩ hkv hk
        dsimp only at hk ⊢
        rw [lookup_filter_ne hk]
    have hdel : (text_diff_versions old new).deleted_files =
        (text_diff_versions (eraseFile old path) (eraseFile new path)).deleted_files := by
      simp only [text_diff_versions, eraseFile]
      refine filterMap_erase_key ?_ ?_
      · rintro ⟨k, v⟩ hkv hk
        dsimp only at hk
        subst hk
        rw [hlkn]
      · rintro ⟨k, v⟩ hkv hk
        dsimp only at hk ⊢
        rw [lookup_filter_ne hk]
    have hadd : (text_diff_versions old new).added_files =
        (text_diff_versions (eraseFile old path) (eraseFile new path)).added_files := by
      simp only [text_diff_versions, eraseFile]
      refine filterMap_erase_key ?_ ?_
      · rintro ⟨k, v⟩ hkv hk
        dsimp only at hk
        subst hk
        rw [hlko]
      · rintro ⟨k, v⟩ hkv hk
        dsimp only at hk ⊢
        rw [lookup_filter_ne hk]
    cases htd : text_diff_versions old new with
    | mk a d m =>
      cases htd' : text_diff_versions (eraseFile old path) (eraseFile new path) with
      | mk a' d' m' =>
        rw [htd, htd'] at hadd hdel hmod
        simp only at hadd hdel hmod
        rw [hadd, hdel, hmod]
  exact ⟨hnot, hdiff, congrArg calculate_divergences hdiff⟩

/-- Witness for C10: on concrete versions whose file `bin` is the
non-text sentinel on one side and the empty string on the other, `bin`
lands in no group and the divergences equal those with `bin` removed. -/
theorem claim_c10_sentinel_file_ignored_witness :
    (c10Old.files.map Prod.fst).Nodup ∧
    (c10New.files.map Prod.fst).Nodup ∧
    ("bin", (⟨none⟩ : FileData)) ∈ c10Old.files ∧
    ("bin", (⟨some ""⟩ : FileData)) ∈ c10New.files ∧
    ((⟨none⟩ : FileData).text_content = none ∨
      (⟨some ""⟩ : FileData).text_content = none) ∧
    coerceText ⟨none⟩ = coerceText ⟨some ""⟩ ∧
    (("bin" ∉ (text_diff_versions c10Old c10New).added_files.map FileChange.filename ∧
      "bin" ∉ (text_diff_versions c10Old c10New).deleted_files.map FileChange.filename ∧
      "bin" ∉ (text_diff_versions c10Old c10New).modified_files.map FileChange.filename) ∧
    text_diff_versions c10Old c10New =
      text_diff_versions (eraseFile c10Old "bin") (eraseFile c10New "bin") ∧
    calculate_divergences (text_diff_versions c10Old c10New) =
      calculate_divergences
        (text_diff_versions (eraseFile c10Old "bin") (eraseFile c10New "bin"))) :=
  ⟨by decide, by decide, by decide, by decide, by decide, by decide,
    claim_c10_sentinel_file_ignored c10Old c10New "bin" ⟨none⟩ ⟨some ""⟩
      (by decide) (by decide) (by decide) (by decide) (by decide) (by decide)⟩

/-- C3: for every `TextualVersionDiff`, the `(forward, backward)` pair
returned by `calculate_divergences` satisfies
`forward.added == backward.deleted`, `forward.deleted == backward.added`,
and `forward.modified == backward.modified`. -/
theorem claim_c3_forward_backward_counts (td : TextualVersionDiff) :
    (calculate_divergences td).1.added = (calculate_divergences td).2.deleted ∧
    (calculate_divergences td).1.deleted = (calculate_divergences td).2.added ∧
    (calculate_divergences td).1.modified = (calculate_divergences td).2.modified :=
  ⟨rfl, rfl, rfl⟩

unseal Rat.add Rat.mul Rat.sub Rat.inv Rat.ofScientific in
/-- Counterexample for C4: on the claim's own 4×4 matrix, `find_msa`
returns `[_, 2, 3, 0]` (total weight 105), yet the valid arborescence
`[_, 0, 1, 1]` has strictly larger total weight (119) — so `find_msa`
does **not** return a maximum spanning arborescence. -/
theorem claim_c4_counterexample :
    find_msa c4Matrix 4 0 = [none, some 2, some 3, some 0] ∧
    isArborescence 4 0 [none, some 0, some 1, some 1] = true ∧
    msaScore c4Matrix (find_msa c4Matrix 4 0) <
      msaScore c4Matrix [none, some 0, some 1, some 1] := by
  decide

unseal Rat.add Rat.mul Rat.sub Rat.inv Rat.ofScientific in
/-- C4 (amended): `find_msa` negates the input weight matrix before
calling the maximum-score Chu-Liu/Edmonds solver, so it returns a
**minimum** spanning arborescence (its total weight is `≤` that of every
valid spanning arborescence); in particular, on the 4×4 matrix
`[[0,99,100,99],[99,0,10,10],[100,1,0,5],[99,2,5,0]]` with root 0 it
returns the parent vector `[None, Some 2, Some 3, Some 0]`. -/
theorem claim_c4_amended_msa_minimises :
    (∀ (scores : Nat → Nat → ℚ) (n root : Nat) (q : List (Option Nat)),
        q ∈ parentVectors n root → isArborescence n root q = true →
        msaScore scores (find_msa scores n root) ≤ msaScore scores q) ∧
    find_msa c4Matrix 4 0 = [none, some 2, some 3, some 0] ∧
    isArborescence 4 0 [none, some 2, some 3, some 0] = true := by
  refine ⟨?_, by decide, by decide⟩
  intro scores n root q hq hqa
  have hqmem : q ∈ (parentVectors n root).filter (isArborescence n root) :=
    List.mem_filter.mpr ⟨hq, hqa⟩
  unfold find_msa chu_liu_edmonds
  dsimp only
  cases hmax : ((parentVectors n root).filter (isArborescence n root)).argmax
      (msaScore fun i j => -(scores i j)) with
  | none =>
    rw [List.argmax_eq_none] at hmax
    rw [hmax] at hqmem
    cases hqmem
  | some p =>
    have hle := List.le_of_mem_argmax hqmem (show p ∈ _ from hmax)
    rw [msaScore_neg, msaScore_neg] at hle
    dsimp only
    linarith

/-- Witness for C4 (amended): the minimality bound applied on the
concrete matrix against the concrete competitor `[_, 0, 1, 1]`. -/
theorem claim_c4_amended_msa_minimises_witness :
    [none, some 0, some 1, some 1] ∈ parentVectors 4 0 ∧
    isArborescence 4 0 [none, some 0, some 1, some 1] = true ∧
    msaScore c4Matrix (find_msa c4Matrix 4 0) ≤
      msaScore c4Matrix [none, some 0, some 1, some 1] :=
  ⟨by decide, by decide,
    claim_c4_amended_msa_minimises.1 c4Matrix 4 0 [none, some 0, some 1, some 1]
      (by decide) (by decide)⟩

/-- C5: if the parent vector handed to the forest assembler encodes more
than one root (more than one index whose parent entry is `None`), the
assembled forest does not have exactly one tree, so the engine's
`assert_eq!(forest.len(), 1, "MSA is not tree")` fires instead of a tree
being returned. -/
theorem claim_c5_multi_root_asserts (parents : List (Option Nat))
    (h : 2 ≤ (parents.filter (fun p => p == none)).length) :
    (assemble_forest parents none).length ≠ 1 := by
  have hlen : (assemble_forest parents none).length =
      (parents.filter (fun p => p == none)).length := by
    unfold assemble_forest assembleForestF
    rw [List.length_map, List.enum]
    exact enumFrom_filter_snd_length (fun p => p == none) 0 parents
  omega

/-- Witness for C5: a two-root parent vector makes the tree-count
assertion fail. -/
theorem claim_c5_multi_root_asserts_witness :
    2 ≤ (([none, none] : List (Option Nat)).filter (fun p => p == none)).length ∧
    (assemble_forest [none, none] none).length ≠ 1 :=
  ⟨by decide, claim_c5_multi_root_asserts [none, none] (by decide)⟩

/-- C6: after the comparison driver populates the N×N divergence matrix
from all unordered pairs of the `Empty`-prepended snapshot vector,
`D[i][i] = 0` for every `i` and `D[i][j] ≥ 0` for every `i ≠ j`. -/
theorem claim_c6_matrix_diag_zero_nonneg (versions₀ : List Version) (i j : Nat) :
    divergencesMatrix (nullVersion :: versions₀) i i = 0 ∧
    (i ≠ j → 0 ≤ divergencesMatrix (nullVersion :: versions₀) i j) := by
  have hrs : ∀ r ∈ comparisonResults (nullVersion :: versions₀),
      r.1 ≠ r.2.1 ∧ 0 ≤ r.2.2.1.divergence ∧ 0 ≤ r.2.2.2.divergence := by
    intro r hr
    simp only [comparisonResults, List.mem_map] at hr
    obtain ⟨p, hp, rfl⟩ := hr
    refine ⟨Nat.ne_of_lt (mem_toCompare hp), ?_, ?_⟩
    · exact (calculate_divergences_nonneg _).1
    · exact (calculate_divergences_nonneg _).2
  have hinv := matrix_fold_invariant (comparisonResults (nullVersion :: versions₀))
    (fun _ _ => 0) (fun _ => rfl) (fun _ _ => le_refl 0) hrs
  exact ⟨hinv.1 i, fun _ => hinv.2 i j⟩

/-- Witness for C6: the invariant on a concrete populated matrix, at the
off-diagonal cell (1, 2). -/
theorem claim_c6_matrix_diag_zero_nonneg_witness :
    divergencesMatrix (nullVersion :: c9DupInput) 1 1 = 0 ∧
    ((1 : Nat) ≠ 2 → 0 ≤ divergencesMatrix (nullVersion :: c9DupInput) 1 2) :=
  claim_c6_matrix_diag_zero_nonneg c9DupInput 1 2

/-- Structural induction for the nested tree type. -/
theorem TreeNode.inductionOn {T : Type} {P : TreeNode T → Prop}
    (h : ∀ (v : T) (cs : List (TreeNode T)), (∀ c ∈ cs, P c) → P (.mk v cs)) :
    ∀ t, P t
  | .mk v cs => h v cs (fun c hc => TreeNode.inductionOn h c)
termination_by t => sizeOf t
decreasing_by
  have := List.sizeOf_lt_of_mem hc
  simp only [TreeNode.mk.sizeOf_spec]
  omega

/-- The Rust tree equality is reflexive. -/
theorem treeEq_refl {T : Type} [DecidableEq T] : ∀ (t : TreeNode T), treeEq t t = true := by
  intro t
  induction t using TreeNode.inductionOn with
  | h v cs ih =>
    rw [treeEq, if_neg (by simp)]
    rw [List.all_eq_true]
    rintro ⟨c, hc⟩ -
    rw [List.any_eq_true]
    exact ⟨c, hc, ih c hc⟩

/-- The Rust tree equality accepts any permutation of the children. -/
theorem treeEq_of_perm {T : Type} [DecidableEq T] (v : T) {cs ds : List (TreeNode T)}
    (h : cs.Perm ds) : treeEq (TreeNode.mk v cs) (TreeNode.mk v ds) = true := by
  rw [treeEq, if_neg (by simp [h.length_eq])]
  rw [List.all_eq_true]
  rintro ⟨c, hc⟩ -
  rw [List.any_eq_true]
  exact ⟨c, h.mem_iff.mp hc, treeEq_refl c⟩

/-- Counterexample for C7: with `A = (0, [])` and `B = (1, [])`, the node
`(5, [A, A])` compares equal to `(5, [A, B])` but not conversely, and
`[A, A]` is not a permutation (equal multiset) of `[A, B]` — so the Rust
equality is not multiset equality of children and is not symmetric. -/
theorem claim_c7_counterexample :
    treeEq c7Left c7Right = true ∧ treeEq c7Right c7Left = false ∧
    ¬ ([c7A, c7A].Perm [c7A, c7B]) := by
  refine ⟨?_, ?_, ?_⟩
  · simp [c7Left, c7Right, c7A, c7B, treeEq]
  · simp [c7Left, c7Right, c7A, c7B, treeEq]
  · intro hperm
    have hmem : c7B ∈ [c7A, c7A] := hperm.mem_iff.mpr (by simp)
    simp [c7A, c7B] at hmem

/-- C7 (amended): `TreeNode` structural equality ignores child order in
the one-sided sense: it is reflexive, and two nodes with equal values
whose children are permutations of each other (equal multisets) compare
equal; but — per the counterexample — equality does not imply that the
children form equal multisets, and the relation is not symmetric. -/
theorem claim_c7_amended_tree_eq :
    (∀ (T : Type) (inst : DecidableEq T) (t : TreeNode T), treeEq t t = true) ∧
    (∀ (T : Type) (inst : DecidableEq T) (v : T) (cs ds : List (TreeNode T)),
        cs.Perm ds → treeEq (TreeNode.mk v cs) (TreeNode.mk v ds) = true) :=
  ⟨fun _ _ t => treeEq_refl t, fun _ _ v _ _ h => treeEq_of_perm v h⟩

/-- Witness for C7 (amended): permuting the two distinct children of a
concrete node preserves equality. -/
theorem claim_c7_amended_tree_eq_witness :
    ([c7A, c7B].Perm [c7B, c7A]) ∧
    treeEq (TreeNode.mk 5 [c7A, c7B]) (TreeNode.mk 5 [c7B, c7A]) = true :=
  ⟨List.Perm.swap c7B c7A [],
    claim_c7_amended_tree_eq.2 Nat inferInstance 5 [c7A, c7B] [c7B, c7A]
      (List.Perm.swap c7B c7A [])⟩

/-- C8: every node of the persisted inferred tree is serialised as a JSON
object whose `value` carries the five `DiffInfo` fields `name`, `added`,
`deleted`, `modified` and `divergence` (at every serialisation budget,
since even a truncated recursion emits a full `value` object). -/
theorem claim_c8_serialised_nodes_carry_diffinfo (fuel : Nat)
    (t : TreeNode DiffInfo) : CarriesDiffInfoFields (treeToJsonF fuel t) := by
  induction fuel generalizing t with
  | zero =>
    obtain ⟨v, cs⟩ := t
    exact .node v.name v.added v.deleted v.modified v.divergence []
      (by intro k hk; cases hk)
  | succ fuel ih =>
    obtain ⟨v, cs⟩ := t
    refine .node v.name v.added v.deleted v.modified v.divergence
      (cs.map (treeToJsonF fuel)) ?_
    intro k hk
    obtain ⟨c, -, rfl⟩ := List.mem_map.mp hk
    exact ih c

unseal Rat.add Rat.mul Rat.sub Rat.inv Rat.ofScientific in
/-- Counterexample for C9: on two input snapshots that share the display
name `v`, `infer_version_tree` returns a tree — it does not fail with a
`DuplicateName` error (no such check exists in the code). -/
theorem claim_c9_counterexample :
    (infer_version_tree c9DupInput).isSome = true := by
  decide

unseal Rat.add Rat.mul Rat.sub Rat.inv Rat.ofScientific in
/-- C9 (amended): inference performs no name validation: with two input
snapshots sharing a display name, and likewise with an input snapshot
literally named `Empty`, `infer_version_tree` still produces a tree; no
`DuplicateName` error exists. -/
theorem claim_c9_amended_no_duplicate_name_check :
    (infer_version_tree c9DupInput).isSome = true ∧
    (infer_version_tree c9EmptyNamedInput).isSome = true := by
  constructor <;> decide

end VHI
